import Mathlib

/-!
ResumeAI front-end script (`static/js/script.js`)

A shallow embedding of the client-side state of the resume screening page:
the module-level variables of the script become the fields of `AppState`,
and every function of the script that mutates them becomes a function
`AppState → AppState`.  Notifications (`showAlert`) and issued requests
(`fetch`) are recorded in two logs carried by the state.

Conventions of the embedding.
* JavaScript strings are Lean strings, that is sequences of Unicode characters
  without lone surrogates; `<` on strings compares their UTF-16 code units
  (`codeUnits`), as the language does.
* JavaScript numbers received from the server (scores, years) are finite and
  are represented by rationals; `parseFloat` of a number is that number.
* `String.prototype.toLowerCase` depends on the case tables of the script engine.
  Where the script lower-cases candidate names (line 475) the function is a
  parameter `lower` of the embedding, so the statements hold for every
  lower-casing function.  Where it lower-cases a file extension (line 112) only
  the letters `A`-`Z` matter and `toLowerCase` maps those.
* What a click on the view-details button of a row passes to `showCandidateModal`
  is fixed by the embedding for the records whose interpolated texts contain no
  markup or quoting character; for the other records it is a parameter `browser`.
* `Array.prototype.sort` is the stable sort the language standard requires;
  it is represented by stable insertion sort, where `a` stays in front of `b`
  when the comparator returns a value `≤ 0`.
-/

namespace ResumeAI

/-! ## Data model -/

/-- Value of `sortOrder.direction`: the script only ever stores `"asc"` or `"desc"`. -/
inductive Direction where
  | asc
  | desc
  deriving DecidableEq, Repr

/-- The object held by the variable `sortOrder` (line 7). -/
structure SortOrder where
  column : String
  direction : Direction
  deriving DecidableEq, Repr

/-- The `breakdown` sub-object of a mapped result (line 224). -/
structure Breakdown where
  experience : ℚ
  skills : ℚ
  keywords : ℚ
  deriving DecidableEq, Repr

/-- One element of `currentResults`, as built by the mapping of lines 213-225. -/
structure Candidate where
  name : String
  score : ℚ
  experienceScore : ℚ
  skillsScore : ℚ
  keywordsScore : ℚ
  jobMatch : ℚ
  yearsExperience : ℚ
  skills : List String
  text : String
  jobRole : String
  breakdown : Breakdown
  deriving DecidableEq, Repr

/-- One record of the `results` array of the server response (section 6 of the interface). -/
structure RawResult where
  Resume : String
  Score : ℚ
  ExperienceScore : ℚ
  SkillsScore : ℚ
  KeywordsScore : ℚ
  JobMatch : ℚ
  YearsExperience : ℚ
  IdentifiedSkills : List String
  ResumeSummary : String
  deriving DecidableEq, Repr

/-- A browser `File` object: the script reads `name`, `type` and `size`. -/
structure File where
  name : String
  type : String
  size : Nat
  deriving DecidableEq, Repr

/-- First argument of `showAlert`. -/
inductive AlertKind where
  | success
  | error
  deriving DecidableEq, Repr

/-- One call of `showAlert(type, message)`. -/
structure Alert where
  kind : AlertKind
  message : String
  deriving DecidableEq, Repr

/-- The multipart body handed to `fetch("/api/filter", ...)` (lines 203-210). -/
structure Request where
  resumes : List File
  role : String
  deriving DecidableEq, Repr

/-- The variable `itemsPerPage` (line 6); the script never assigns it again. -/
def itemsPerPage : Nat := 10

/-- The module-level variables of the script that change (lines 4-10), the log
of the notifications shown and the log of the requests issued. -/
structure AppState where
  currentResults : List Candidate
  currentPage : Int
  sortOrder : SortOrder
  currentModalFilename : String
  selectedJobRole : String
  uploadedFiles : List File
  alerts : List Alert
  requests : List Request
  deriving DecidableEq, Repr

/-- The values the variables are initialised with (lines 4-10). -/
def initialState : AppState where
  currentResults := []
  currentPage := 1
  sortOrder := ⟨"score", Direction.desc⟩
  currentModalFilename := ""
  selectedJobRole := ""
  uploadedFiles := []
  alerts := []
  requests := []

/-! ## Library functions of the host language -/

/-- `String.prototype.toLowerCase` as far as the extension test of lines 112-114 needs
it: the letters `A`-`Z` are mapped to `a`-`z`.  No other character lower-cases to one of
the letters of `pdf`, `doc`, `docx`, `txt`, so the test does not depend on the rest of
the case tables.  Only `fileExtension` uses this function. -/
def toLowerCase (s : String) : String :=
  String.mk (s.data.map Char.toLower)

/-- The UTF-16 code units of a string: `<` and `>` on two strings compare these
sequences lexicographically. -/
def codeUnits (s : String) : List ℕ :=
  s.data.flatMap (fun c =>
    if c.toNat < 65536 then [c.toNat]
    else [55296 + (c.toNat - 65536) / 1024, 56320 + (c.toNat - 65536) % 1024])

/-- `parseFloat` applied to a number. -/
def parseFloat (x : ℚ) : ℚ := x

/-- `Array.prototype.sort(comparefn)`: a stable sort. -/
def sort {α : Type} (comparefn : α → α → Int) (l : List α) : List α :=
  List.insertionSort (fun a b => comparefn a b ≤ 0) l

/-! ## Sorting the result table (lines 466-492) -/

/-- The last line of the comparator (line 477), for two extracted values. -/
def compareVals {κ : Type} [LT κ] [DecidableRel (fun (x y : κ) => x < y)]
    (newDirection : Direction) (valA valB : κ) : Int :=
  if valA < valB then (if newDirection = Direction.asc then -1 else 1)
  else if valA > valB then (if newDirection = Direction.asc then 1 else -1)
  else 0

/-- The comparator passed to `currentResults.sort` (lines 470-478).  The parameter
`lower` is `String.prototype.toLowerCase` of the script engine. -/
def compareFn (lower : String → String) (column : String) (newDirection : Direction)
    (a b : Candidate) : Int :=
  if column = "score" then
    compareVals newDirection (parseFloat a.score) (parseFloat b.score)
  else if column = "experience" then
    compareVals newDirection a.yearsExperience b.yearsExperience
  else
    compareVals newDirection (codeUnits (lower a.name)) (codeUnits (lower b.name))

/-- The direction computed on line 467. -/
def newDirection (sortOrder : SortOrder) (column : String) : Direction :=
  if sortOrder.column = column ∧ sortOrder.direction = Direction.asc then Direction.desc
  else Direction.asc

/-- The function `sortTable(column)` (lines 466-492): the state it leaves behind.  The
parameter `lower` is `String.prototype.toLowerCase` of the script engine. -/
def sortTable (lower : String → String) (column : String) (s : AppState) : AppState :=
  { s with
    sortOrder := ⟨column, newDirection s.sortOrder column⟩
    currentResults :=
      sort (compareFn lower column (newDirection s.sortOrder column)) s.currentResults }

/-! ## Notifications (lines 663-674) -/

/-- The function `showAlert(type, message)`: the call is appended to the log. -/
def showAlert (type : AlertKind) (message : String) (s : AppState) : AppState :=
  { s with alerts := s.alerts ++ [⟨type, message⟩] }

/-- The function `showSuccessAlert(message)`. -/
def showSuccessAlert (message : String) (s : AppState) : AppState :=
  showAlert AlertKind.success message s

/-- The function `showErrorAlert(message)`. -/
def showErrorAlert (message : String) (s : AppState) : AppState :=
  showAlert AlertKind.error message s

/-! ## File staging (lines 105-169) -/

/-- The array `supportedTypes` (lines 106-108). -/
def supportedTypes : List String :=
  ["application/pdf", "application/msword",
   "application/vnd.openxmlformats-officedocument.wordprocessingml.document", "text/plain"]

/-- The call `split(".")` on the characters of a string: the pieces between the dots. -/
def split : List Char → List (List Char)
  | [] => [[]]
  | c :: cs =>
    if c = '.' then [] :: split cs
    else
      match split cs with
      | [] => [[c]]
      | piece :: pieces => (c :: piece) :: pieces

/-- The call `pop()` on the array returned by `split`: its last element. -/
def pop (pieces : List (List Char)) : List Char :=
  pieces.getLastD []

/-- The constant `fileExtension` of line 112: `file.name.split(".").pop().toLowerCase()`. -/
def fileExtension (name : String) : String :=
  toLowerCase (String.mk (pop (split name.data)))

/-- The condition of line 114. -/
def isSupported (file : File) : Bool :=
  decide (file.type ∈ supportedTypes) ||
    decide (fileExtension file.name ∈ ["pdf", "doc", "docx", "txt"])

/-- The body of the loop of `handleFiles` (lines 111-141), for one file. -/
def handleFile (s : AppState) (file : File) : AppState :=
  if isSupported file then
    match s.uploadedFiles.find? (fun f => decide (f.name = file.name)) with
    | some _ => showErrorAlert ("File \"" ++ file.name ++ "\" is already uploaded.") s
    | none => { s with uploadedFiles := s.uploadedFiles ++ [file] }
  else
    showErrorAlert
      ("Unsupported file type: \"" ++ file.name ++
        "\". Please upload PDF, DOC, DOCX, or TXT files.") s

/-- The function `handleFiles(files)` (lines 105-144). -/
def handleFiles (files : List File) (s : AppState) : AppState :=
  files.foldl handleFile s

/-- The click handler of a remove button (lines 159-169), for the list item of `filename`. -/
def removeFile (filename : String) (s : AppState) : AppState :=
  { s with uploadedFiles := s.uploadedFiles.filter (fun file => decide (file.name ≠ filename)) }

/-! ## Submission (lines 81-88, 184-225) -/

/-- The change handler of the role selector (lines 81-83): the assignment to
`selectedJobRole`. -/
def changeJobRole (value : String) (s : AppState) : AppState :=
  { s with selectedJobRole := value }

/-- The part of `processResumes` up to the call of `fetch` (lines 199-210):
the request built from the staged files and the selected role is issued. -/
def processResumes (s : AppState) : AppState :=
  { s with requests := s.requests ++ [⟨s.uploadedFiles, s.selectedJobRole⟩] }

/-- The submit handler of the upload form (lines 184-197). -/
def submitHandler (s : AppState) : AppState :=
  if s.uploadedFiles.length = 0 then
    showErrorAlert "Please upload at least one resume." s
  else if s.selectedJobRole = "" then
    showErrorAlert "Please select a job role." s
  else
    processResumes s

/-- Whether the pattern `\.(pdf|doc|docx|txt)$` matches at the head of `cs`: a dot,
one of the four alternatives, and then, because of the anchor, the end of the string. -/
def matchesHere (cs : List Char) : Bool :=
  match cs with
  | [] => false
  | c :: rest =>
    decide (c = '.') &&
      (decide (rest = ['p', 'd', 'f']) || decide (rest = ['d', 'o', 'c']) ||
        decide (rest = ['d', 'o', 'c', 'x']) || decide (rest = ['t', 'x', 't']))

/-- The call `replace(/\.(pdf|doc|docx|txt)$/, "")` on the characters of a string:
the leftmost match is searched from the left and replaced by the empty string. -/
def replaceExt : List Char → List Char
  | [] => []
  | c :: cs => if matchesHere (c :: cs) then [] else c :: replaceExt cs

/-- The `name` computed on line 214 from the field `Resume`. -/
def candidateName (resume : String) : String :=
  String.mk (replaceExt resume.data)

/-- The arrow function of lines 213-225, mapping one record of the response. -/
def mapResult (selectedJobRole : String) (result : RawResult) : Candidate where
  name := candidateName result.Resume
  score := result.Score
  experienceScore := result.ExperienceScore
  skillsScore := result.SkillsScore
  keywordsScore := result.KeywordsScore
  jobMatch := result.JobMatch
  yearsExperience := result.YearsExperience
  skills := result.IdentifiedSkills
  text := result.ResumeSummary
  jobRole := selectedJobRole
  breakdown := ⟨result.ExperienceScore, result.SkillsScore, result.KeywordsScore⟩

/-- The assignment of line 213, once a successful response has arrived. -/
def receiveResults (results : List RawResult) (s : AppState) : AppState :=
  { s with currentResults := results.map (mapResult s.selectedJobRole) }

/-! ## Score badge (lines 601-607) -/

/-- The function `getScoreColor(score, isDark)`. -/
def getScoreColor (score : ℚ) (isDark : Bool) : String :=
  let scoreVal := parseFloat score
  if scoreVal ≥ 90 then (if isDark then "#11998e" else "#38ef7d")
  else if scoreVal ≥ 75 then (if isDark then "#4facfe" else "#00f2fe")
  else if scoreVal ≥ 60 then (if isDark then "#fce38a" else "#f38181")
  else (if isDark then "#fc466b" else "#3f5efb")

/-! ## Rendering (lines 377-464) -/

/-- `Array.prototype.slice(start, end)`; a negative index counts from the end. -/
def slice {α : Type} (l : List α) (start stop : Int) : List α :=
  let len : Int := l.length
  let k := if start < 0 then max (len + start) 0 else min start len
  let final := if stop < 0 then max (len + stop) 0 else min stop len
  (l.drop k.toNat).take (final - k).toNat

/-- One row appended to the table body (lines 392-423): the values interpolated into it. -/
structure Row where
  name : String
  badgeLight : String
  badgeDark : String
  score : ℚ
  yearsExperience : ℚ
  skillBadges : List String
  moreSkills : Option Nat
  onclickName : String
  deriving DecidableEq, Repr

/-- The row built for one record (lines 392-423).  The field `onclickName` is the text
that line 418 splices between the quotes of the inline handler
`showCandidateModal('...')` of the button; it is source text of the handler, not yet the
argument of a call: what a click on the button passes is `viewDetailsArgument`. -/
def renderRow (resume : Candidate) : Row where
  name := resume.name
  badgeLight := getScoreColor resume.score false
  badgeDark := getScoreColor resume.score true
  score := resume.score
  yearsExperience := resume.yearsExperience
  skillBadges := resume.skills.take 3
  moreSkills := if resume.skills.length > 3 then some (resume.skills.length - 3) else none
  onclickName := resume.name

/-- The constant `paginatedResults` of line 389. -/
def paginatedResults (s : AppState) : List Candidate :=
  let start := (s.currentPage - 1) * (itemsPerPage : Int)
  let stop := start + (itemsPerPage : Int)
  slice s.currentResults start stop

/-- The function `renderTable()` (lines 382-425): the rows of the table body. -/
def renderTable (s : AppState) : List Row :=
  (paginatedResults s).map renderRow

/-- The constant `pageCount` of line 432: `Math.ceil(currentResults.length / itemsPerPage)`. -/
def pageCount (s : AppState) : Int :=
  ⌈(s.currentResults.length : ℚ) / (itemsPerPage : ℚ)⌉

/-- What an element of the pagination control shows. -/
inductive PageLabel where
  | prev
  | page (i : Int)
  | next
  deriving DecidableEq, Repr

/-- The three click handlers registered by `renderPagination` (lines 441, 451, 461). -/
inductive PageAction where
  | decrement
  | goto (i : Int)
  | increment
  deriving DecidableEq, Repr

/-- One `li` of the pagination control, with its classes and its click handler, if any. -/
structure PageItem where
  label : PageLabel
  active : Bool
  disabled : Bool
  onClick : Option PageAction
  deriving DecidableEq, Repr

/-- The item `prevItem` (lines 436-443). -/
def prevItem (s : AppState) : PageItem where
  label := PageLabel.prev
  active := false
  disabled := decide (s.currentPage = 1)
  onClick := if s.currentPage > 1 then some PageAction.decrement else none

/-- The item built by one turn of the loop (lines 446-453). -/
def pageItem (s : AppState) (i : Int) : PageItem where
  label := PageLabel.page i
  active := decide (i = s.currentPage)
  disabled := false
  onClick := if i ≠ s.currentPage then some (PageAction.goto i) else none

/-- The item `nextItem` (lines 456-463). -/
def nextItem (s : AppState) : PageItem where
  label := PageLabel.next
  active := false
  disabled := decide (s.currentPage = pageCount s)
  onClick := if s.currentPage < pageCount s then some PageAction.increment else none

/-- The function `renderPagination()` (lines 427-464): the items of the control. -/
def renderPagination (s : AppState) : List PageItem :=
  if pageCount s ≤ 1 then []
  else
    prevItem s ::
      ((List.range (pageCount s).toNat).map (fun (k : ℕ) => pageItem s ((k : Int) + 1)) ++
        [nextItem s])

/-- What a registered click handler does to the state (lines 441, 451, 461). -/
def runAction (a : PageAction) (s : AppState) : AppState :=
  match a with
  | PageAction.decrement => { s with currentPage := s.currentPage - 1 }
  | PageAction.goto i => { s with currentPage := i }
  | PageAction.increment => { s with currentPage := s.currentPage + 1 }

/-- A click on an item of the control: its handler runs if it has one. -/
def click (item : PageItem) (s : AppState) : AppState :=
  match item.onClick with
  | some a => runAction a s
  | none => s

/-! ## Detail modal and return to the upload view (lines 494-529, 609-618) -/

/-- The function `showCandidateModal(candidateName)` (lines 494-529): the state it leaves
behind and the record handed to `populateCandidateModal`, if the lookup of line 495
found one. -/
def showCandidateModal (candidateName : String) (s : AppState) :
    AppState × Option Candidate :=
  match s.currentResults.find? (fun r => decide (r.name = candidateName)) with
  | none => (s, none)
  | some candidate => ({ s with currentModalFilename := candidateName }, some candidate)

/-- Whether a character is free of any meaning in the markup of a row and in the string
literal of its inline handler: not a control character or line separator, and none of
the double quote, `&`, the single quote, `<`, `>`, the backslash and the backtick. -/
def isPlainChar (c : Char) : Bool :=
  decide (32 ≤ c.toNat) && !decide (127 ≤ c.toNat ∧ c.toNat ≤ 159) &&
    !decide (c.toNat ∈ [34, 38, 39, 60, 62, 92, 96, 8232, 8233])

/-- Whether a text consists of plain characters only. -/
def isPlainText (text : String) : Bool :=
  text.data.all isPlainChar

/-- Whether the texts that the template of lines 393-422 splices into the markup of the
row of a record (its name, its role, its first three skills) are plain.  The score and
the years of experience are numbers. -/
def isPlainRecord (resume : Candidate) : Bool :=
  isPlainText resume.name && isPlainText resume.jobRole &&
    (resume.skills.take 3).all isPlainText

/-- What a click on the view-details button of the row of a record passes to
`showCandidateModal`, or `none` when the click makes no call.  The row is built by
assigning the template of lines 393-422 to `innerHTML`, with the name spliced into the
inline handler `showCandidateModal('...')` (line 418).  When the spliced texts are plain,
the markup is read as the template writes it and the handler passes the name.
Otherwise the outcome depends on how the spliced text is read as markup and as script;
the embedding leaves it to the parameter `browser`. -/
def viewDetailsArgument (browser : Candidate → Option String) (resume : Candidate) :
    Option String :=
  if isPlainRecord resume then some resume.name else browser resume

/-- A click on the view-details button of the row of a record (line 418). -/
def clickViewDetails (browser : Candidate → Option String) (resume : Candidate)
    (s : AppState) : AppState × Option Candidate :=
  match viewDetailsArgument browser resume with
  | some candidateName => showCandidateModal candidateName s
  | none => (s, none)

/-- The function `goBackToUpload()` (lines 609-618): the two assignments to the variables. -/
def goBackToUpload (s : AppState) : AppState :=
  { s with currentResults := [], currentPage := 1 }

/-! ## Vocabulary of the statements -/

/-- One user action on the results view: a click on the element at position `k` of the
pagination control, or a click on the header of a sortable column. -/
inductive ViewEvent where
  | clickPagination (k : Nat)
  | clickHeader (column : String)
  deriving DecidableEq, Repr

/-- The effect of one action on the results view.  A click reaches the element that is
rendered at that position for the current state. -/
def handleEvent (lower : String → String) (s : AppState) : ViewEvent → AppState
  | ViewEvent.clickPagination k =>
    match (renderPagination s)[k]? with
    | some item => click item s
    | none => s
  | ViewEvent.clickHeader column => sortTable lower column s

/-- The effect of a sequence of actions on the results view, in order. -/
def runEvents (lower : String → String) (events : List ViewEvent) (s : AppState) :
    AppState :=
  events.foldl (handleEvent lower) s

/-- The slice rendered for page `p` of the result list of `s`. -/
def pageSlice (s : AppState) (p : ℤ) : List Candidate :=
  paginatedResults { s with currentPage := p }

/-- A response record for the file `resume` with the given overall score. -/
def sampleResult (resume : String) (score : ℚ) : RawResult where
  Resume := resume
  Score := score
  ExperienceScore := 50
  SkillsScore := 50
  KeywordsScore := 50
  JobMatch := 50
  YearsExperience := 3
  IdentifiedSkills := ["sql"]
  ResumeSummary := ""

/-- A session in which `cv.pdf` and `cv.docx` are staged, the role `data-analyst` is
selected, the form is submitted and the response with one record per file has arrived. -/
def twoFormatsSession : AppState :=
  receiveResults [sampleResult "cv.pdf" 82, sampleResult "cv.docx" 40]
    (submitHandler
      (changeJobRole "data-analyst"
        (handleFiles
          [⟨"cv.pdf", "application/pdf", 1024⟩,
           ⟨"cv.docx",
            "application/vnd.openxmlformats-officedocument.wordprocessingml.document", 2048⟩]
          initialState)))

/-- One user action on the staging list: a drop or selection of files, or a
click on the remove button of a staged file. -/
inductive StagingOp where
  | addFiles (files : List File)
  | removeFile (filename : String)
  deriving DecidableEq, Repr

/-- The effect of one staging action. -/
def applyOp (s : AppState) : StagingOp → AppState
  | StagingOp.addFiles files => handleFiles files s
  | StagingOp.removeFile filename => removeFile filename s

/-- The effect of a sequence of staging actions, in order. -/
def runOps (ops : List StagingOp) (s : AppState) : AppState :=
  ops.foldl applyOp s

/-- The opposite direction. -/
def Direction.flip : Direction → Direction
  | Direction.asc => Direction.desc
  | Direction.desc => Direction.asc

/-- Two keys are in the order asked for by a direction: non-decreasing for
`asc`, non-increasing for `desc`. -/
def inOrder {κ : Type} [LE κ] (d : Direction) (x y : κ) : Prop :=
  match d with
  | Direction.asc => x ≤ y
  | Direction.desc => y ≤ x

/-- The string `s` ends in the string `suffix`. -/
def endsWith (s suffix : String) : Prop :=
  List.IsSuffix suffix.data s.data

instance (s suffix : String) : Decidable (endsWith s suffix) :=
  inferInstanceAs (Decidable (List.IsSuffix suffix.data s.data))

/-- A result record with the given name, score and years of experience. -/
def sampleCandidate (name : String) (score years : ℚ) : Candidate where
  name := name
  score := score
  experienceScore := 50
  skillsScore := 50
  keywordsScore := 50
  jobMatch := 50
  yearsExperience := years
  skills := ["sql"]
  text := ""
  jobRole := "data-analyst"
  breakdown := ⟨50, 50, 50⟩

/-- A state holding `n` result records and showing page `page`. -/
def sampleState (n : ℕ) (page : ℤ) : AppState :=
  { initialState with
    currentResults := List.replicate n (sampleCandidate "cv" 82 3)
    currentPage := page }

/-- The four score tiers of the badge. -/
inductive Tier where
  | A
  | B
  | C
  | D
  deriving DecidableEq, Repr

/-- The colour pair (light, dark) of each tier. -/
def tierColours : Tier → String × String
  | Tier.A => ("#38ef7d", "#11998e")
  | Tier.B => ("#00f2fe", "#4facfe")
  | Tier.C => ("#f38181", "#fce38a")
  | Tier.D => ("#3f5efb", "#fc466b")

/-- The four suffixes the pattern of line 214 can match, as character lists. -/
def suffixChars : List (List Char) :=
  [['.', 'p', 'd', 'f'], ['.', 'd', 'o', 'c'], ['.', 'd', 'o', 'c', 'x'], ['.', 't', 'x', 't']]

/-- The four extensions of line 114, as character lists. -/
def extChars : List (List Char) :=
  [['p', 'd', 'f'], ['d', 'o', 'c'], ['d', 'o', 'c', 'x'], ['t', 'x', 't']]

/-! ## Sorting: auxiliary facts -/

theorem compareVals_le_zero {κ : Type} [LinearOrder κ]
    [inst : DecidableRel (fun (x y : κ) => x < y)] (d : Direction) (x y : κ) :
    compareVals d x y ≤ 0 ↔ inOrder d x y := by
  unfold compareVals inOrder
  cases d
  · rcases lt_trichotomy x y with h | h | h
    · simp [h, h.le]
    · subst h; simp
    · simp [h, not_lt_of_gt h, not_le_of_gt h]
  · rcases lt_trichotomy x y with h | h | h
    · simp [h, not_le_of_gt h]
    · subst h; simp
    · simp [h, not_lt_of_gt h, h.le]

theorem inOrder_total {κ : Type} [LinearOrder κ] (d : Direction) (x y : κ) :
    inOrder d x y ∨ inOrder d y x := by
  cases d
  · exact le_total x y
  · exact le_total y x

theorem inOrder_trans {κ : Type} [LinearOrder κ] (d : Direction) {x y z : κ}
    (h₁ : inOrder d x y) (h₂ : inOrder d y z) : inOrder d x z := by
  cases d
  · exact le_trans h₁ h₂
  · exact le_trans h₂ h₁

theorem inOrder_of_eq {κ : Type} [LinearOrder κ] (d : Direction) {x y : κ} (h : x = y) :
    inOrder d x y := by
  subst h
  cases d <;> exact le_refl x

/-- Sorting with a comparator that decides the order of a key yields a list
whose keys are in that order. -/
theorem sort_sorted_of_key {α κ : Type} [LinearOrder κ] (cmp : α → α → Int) (key : α → κ)
    (d : Direction) (h : ∀ a b, cmp a b ≤ 0 ↔ inOrder d (key a) (key b)) (l : List α) :
    List.Sorted (fun a b => inOrder d (key a) (key b)) (sort cmp l) := by
  have htot : IsTotal α (fun a b => cmp a b ≤ 0) :=
    ⟨fun a b => by
      rw [h a b, h b a]
      exact inOrder_total d (key a) (key b)⟩
  have htr : IsTrans α (fun a b => cmp a b ≤ 0) :=
    ⟨fun a b c hab hbc => by
      rw [h] at hab hbc ⊢
      exact inOrder_trans d hab hbc⟩
  have hs : List.Sorted (fun a b => cmp a b ≤ 0) (sort cmp l) :=
    List.sorted_insertionSort (fun a b => cmp a b ≤ 0) l
  exact List.Pairwise.imp (fun {a b} hab => (h a b).mp hab) hs

theorem sort_perm {α : Type} (cmp : α → α → Int) (l : List α) :
    List.Perm (sort cmp l) l :=
  List.perm_insertionSort (fun a b => cmp a b ≤ 0) l

/-- Stability: the records that share one key value come out of the sort in
the order in which they went in. -/
theorem sort_filter_key {α κ : Type} [DecidableEq κ] (cmp : α → α → Int) (key : α → κ)
    (h : ∀ a b, key a = key b → cmp a b ≤ 0) (k : κ) (l : List α) :
    (sort cmp l).filter (fun a => decide (key a = k)) =
      l.filter (fun a => decide (key a = k)) := by
  have hpw : (l.filter (fun a => decide (key a = k))).Pairwise (fun a b => cmp a b ≤ 0) := by
    rw [List.pairwise_iff_forall_sublist]
    intro a b hab
    have ha : a ∈ l.filter (fun a => decide (key a = k)) := hab.subset (by simp)
    have hb : b ∈ l.filter (fun a => decide (key a = k)) := hab.subset (by simp)
    simp only [List.mem_filter, decide_eq_true_eq] at ha hb
    exact h a b (ha.2.trans hb.2.symm)
  have hsub : List.Sublist (l.filter (fun a => decide (key a = k))) (sort cmp l) :=
    List.sublist_insertionSort hpw (List.filter_sublist l)
  have hsub2 := hsub.filter (fun a => decide (key a = k))
  rw [List.filter_filter] at hsub2
  simp only [Bool.and_self] at hsub2
  have hlen : ((sort cmp l).filter (fun a => decide (key a = k))).length =
      (l.filter (fun a => decide (key a = k))).length :=
    ((sort_perm cmp l).filter _).length_eq
  exact (hsub2.eq_of_length hlen.symm).symm

theorem compareFn_score (lower : String → String) (d : Direction) (a b : Candidate) :
    compareFn lower "score" d a b ≤ 0 ↔ inOrder d a.score b.score := by
  simp only [compareFn, parseFloat, if_true]
  exact compareVals_le_zero d a.score b.score

theorem compareFn_experience (lower : String → String) (d : Direction) (a b : Candidate) :
    compareFn lower "experience" d a b ≤ 0 ↔
      inOrder d a.yearsExperience b.yearsExperience := by
  have h : ¬ ("experience" = "score") := by decide
  simp only [compareFn, h, if_false, if_true]
  exact compareVals_le_zero d a.yearsExperience b.yearsExperience

theorem compareFn_name (lower : String → String) (d : Direction) (a b : Candidate) :
    compareFn lower "name" d a b ≤ 0 ↔
      inOrder d (codeUnits (lower a.name)) (codeUnits (lower b.name)) := by
  have h₁ : ¬ ("name" = "score") := by decide
  have h₂ : ¬ ("name" = "experience") := by decide
  simp only [compareFn, h₁, h₂, if_false]
  exact compareVals_le_zero d (codeUnits (lower a.name)) (codeUnits (lower b.name))

theorem newDirection_twice (o : SortOrder) (column : String) :
    newDirection ⟨column, newDirection o column⟩ column = (newDirection o column).flip := by
  unfold newDirection
  by_cases h : o.column = column ∧ o.direction = Direction.asc
  · simp [h, Direction.flip]
  · simp [h, Direction.flip]

theorem sortTable_sorted_of_key {κ : Type} [LinearOrder κ] (lower : String → String)
    (column : String) (key : Candidate → κ)
    (h : ∀ d a b, compareFn lower column d a b ≤ 0 ↔ inOrder d (key a) (key b))
    (s : AppState) :
    List.Sorted
      (fun a b => inOrder (sortTable lower column s).sortOrder.direction (key a) (key b))
      (sortTable lower column s).currentResults :=
  sort_sorted_of_key _ key _ (h _) _

/-- Stability of `sortTable` for a tie key: whenever equal keys make the comparator
return a value `≤ 0`, the records sharing one key keep their order. -/
theorem sortTable_filter_key {κ : Type} [DecidableEq κ] (lower : String → String)
    (column : String) (key : Candidate → κ)
    (h : ∀ d a b, key a = key b → compareFn lower column d a b ≤ 0)
    (k : κ) (s : AppState) :
    (sortTable lower column s).currentResults.filter (fun a => decide (key a = k)) =
      s.currentResults.filter (fun a => decide (key a = k)) :=
  sort_filter_key _ key (h _) k _

theorem compareFn_score_tie (lower : String → String) (d : Direction) (a b : Candidate)
    (h : a.score = b.score) : compareFn lower "score" d a b ≤ 0 :=
  (compareFn_score lower d a b).mpr (inOrder_of_eq d h)

theorem compareFn_experience_tie (lower : String → String) (d : Direction)
    (a b : Candidate) (h : a.yearsExperience = b.yearsExperience) :
    compareFn lower "experience" d a b ≤ 0 :=
  (compareFn_experience lower d a b).mpr (inOrder_of_eq d h)

/-- Two names that are equal after lower-casing are a tie of the name comparator. -/
theorem compareFn_name_tie (lower : String → String) (d : Direction) (a b : Candidate)
    (h : lower a.name = lower b.name) : compareFn lower "name" d a b ≤ 0 :=
  (compareFn_name lower d a b).mpr (inOrder_of_eq d (congrArg codeUnits h))

/-! ## Sorting: the claims -/

/-- C1: `sortTable(column)` makes `column` the active sort column and toggles the
direction: when `column` was already the active column the direction is flipped
(asc to desc, desc to asc), otherwise it becomes asc.  From the initial state,
one click on the score header sorts ascending by score, a second one descending. -/
theorem sortTable_toggles_direction (lower : String → String) (s : AppState)
    (column : String) :
    (sortTable lower column s).sortOrder.column = column ∧
    (sortTable lower column s).sortOrder.direction =
      (if s.sortOrder.column = column then s.sortOrder.direction.flip else Direction.asc) ∧
    (sortTable lower "score" initialState).sortOrder = ⟨"score", Direction.asc⟩ ∧
    (sortTable lower "score" (sortTable lower "score" initialState)).sortOrder =
      ⟨"score", Direction.desc⟩ := by
  refine ⟨rfl, ?_, rfl, rfl⟩
  show newDirection s.sortOrder column = _
  unfold newDirection
  by_cases hc : s.sortOrder.column = column
  · cases hd : s.sortOrder.direction <;> simp [hc, Direction.flip]
  · simp [hc]

/-- C2: after `sortTable(column)` the result list is a permutation of the list
before the call, and for each of the columns name, score and experience it is
ordered by the key of the column in the new direction (non-decreasing for asc,
non-increasing for desc): the numeric score, the years of experience, and the
lower-cased candidate name, compared as the language compares strings (by UTF-16
code units).  This holds for every lower-casing function of the script engine. -/
theorem sortTable_perm_and_sorted (lower : String → String) (s : AppState) :
    (∀ column : String,
      List.Perm (sortTable lower column s).currentResults s.currentResults) ∧
    List.Sorted
      (fun a b => inOrder (sortTable lower "score" s).sortOrder.direction a.score b.score)
      (sortTable lower "score" s).currentResults ∧
    List.Sorted
      (fun a b => inOrder (sortTable lower "experience" s).sortOrder.direction
        a.yearsExperience b.yearsExperience)
      (sortTable lower "experience" s).currentResults ∧
    List.Sorted
      (fun a b => inOrder (sortTable lower "name" s).sortOrder.direction
        (codeUnits (lower a.name)) (codeUnits (lower b.name)))
      (sortTable lower "name" s).currentResults :=
  ⟨fun _ => sort_perm _ _,
   sortTable_sorted_of_key lower "score" (fun a => a.score) (compareFn_score lower) s,
   sortTable_sorted_of_key lower "experience" (fun a => a.yearsExperience)
     (compareFn_experience lower) s,
   sortTable_sorted_of_key lower "name" (fun a => codeUnits (lower a.name))
     (compareFn_name lower) s⟩

/-- C3: sorting is stable.  For each sort column and each value of its key, the
records having that key (for name: that lower-cased name, whatever the lower-casing
function of the script engine) appear after `sortTable(column)` in the same order as
before, and still do after a second `sortTable(column)` in a row; the second call uses
the direction opposite to the first. -/
theorem sortTable_stable (lower : String → String) (s : AppState) :
    (∀ k : ℚ,
      (sortTable lower "score" s).currentResults.filter (fun a => decide (a.score = k)) =
        s.currentResults.filter (fun a => decide (a.score = k)) ∧
      (sortTable lower "score" (sortTable lower "score" s)).currentResults.filter
          (fun a => decide (a.score = k)) =
        s.currentResults.filter (fun a => decide (a.score = k))) ∧
    (∀ k : ℚ,
      (sortTable lower "experience" s).currentResults.filter
          (fun a => decide (a.yearsExperience = k)) =
        s.currentResults.filter (fun a => decide (a.yearsExperience = k)) ∧
      (sortTable lower "experience" (sortTable lower "experience" s)).currentResults.filter
          (fun a => decide (a.yearsExperience = k)) =
        s.currentResults.filter (fun a => decide (a.yearsExperience = k))) ∧
    (∀ k : String,
      (sortTable lower "name" s).currentResults.filter
          (fun a => decide (lower a.name = k)) =
        s.currentResults.filter (fun a => decide (lower a.name = k)) ∧
      (sortTable lower "name" (sortTable lower "name" s)).currentResults.filter
          (fun a => decide (lower a.name = k)) =
        s.currentResults.filter (fun a => decide (lower a.name = k))) ∧
    (∀ column : String,
      (sortTable lower column (sortTable lower column s)).sortOrder.direction =
        (sortTable lower column s).sortOrder.direction.flip) := by
  refine ⟨fun k => ⟨?_, ?_⟩, fun k => ⟨?_, ?_⟩, fun k => ⟨?_, ?_⟩, fun column => ?_⟩
  · exact sortTable_filter_key lower "score" (fun a => a.score)
      (compareFn_score_tie lower) k s
  · rw [sortTable_filter_key lower "score" (fun a => a.score)
      (compareFn_score_tie lower) k]
    exact sortTable_filter_key lower "score" (fun a => a.score)
      (compareFn_score_tie lower) k s
  · exact sortTable_filter_key lower "experience" (fun a => a.yearsExperience)
      (compareFn_experience_tie lower) k s
  · rw [sortTable_filter_key lower "experience" (fun a => a.yearsExperience)
      (compareFn_experience_tie lower) k]
    exact sortTable_filter_key lower "experience" (fun a => a.yearsExperience)
      (compareFn_experience_tie lower) k s
  · exact sortTable_filter_key lower "name" (fun a => lower a.name)
      (compareFn_name_tie lower) k s
  · rw [sortTable_filter_key lower "name" (fun a => lower a.name)
      (compareFn_name_tie lower) k]
    exact sortTable_filter_key lower "name" (fun a => lower a.name)
      (compareFn_name_tie lower) k s
  · exact newDirection_twice s.sortOrder column

/-! ## Candidate names: auxiliary facts -/

theorem matchesHere_iff (cs : List Char) : matchesHere cs = true ↔ cs ∈ suffixChars := by
  cases cs with
  | nil => simp [matchesHere, suffixChars]
  | cons c rest =>
    simp only [matchesHere, suffixChars, Bool.and_eq_true, Bool.or_eq_true, decide_eq_true_eq,
      List.mem_cons, List.cons.injEq, List.mem_singleton, List.not_mem_nil, or_false]
    tauto

theorem replaceExt_append (p e : List Char) (he : e ∈ suffixChars) :
    replaceExt (p ++ e) = p := by
  induction p with
  | nil =>
    have hm : matchesHere e = true := (matchesHere_iff e).mpr he
    cases e with
    | nil => simp [suffixChars] at he
    | cons c cs => simp [replaceExt, hm]
  | cons c p ih =>
    have hdot : '.' ∈ p ++ e := by
      apply List.mem_append_right
      simp only [suffixChars, List.mem_cons, List.mem_singleton, List.not_mem_nil,
        or_false] at he
      rcases he with h | h | h | h <;> subst h <;> simp
    have hm : matchesHere (c :: (p ++ e)) = false := by
      cases hmt : matchesHere (c :: (p ++ e)) with
      | false => rfl
      | true =>
        exfalso
        have hmem := (matchesHere_iff _).mp hmt
        simp only [suffixChars, List.mem_cons, List.cons.injEq, List.mem_singleton,
          List.not_mem_nil, or_false] at hmem
        rcases hmem with ⟨_, h⟩ | ⟨_, h⟩ | ⟨_, h⟩ | ⟨_, h⟩ <;> rw [h] at hdot <;>
          simp at hdot
    simp [replaceExt, hm, ih]

theorem replaceExt_of_no_suffix (l : List Char)
    (h : ∀ e ∈ suffixChars, ¬ List.IsSuffix e l) : replaceExt l = l := by
  induction l with
  | nil => rfl
  | cons c cs ih =>
    have hm : matchesHere (c :: cs) = false := by
      cases hmt : matchesHere (c :: cs) with
      | false => rfl
      | true => exact absurd (List.suffix_refl _) (h _ ((matchesHere_iff _).mp hmt))
    have ih' := ih (fun e he hsuf => h e he (hsuf.trans (List.suffix_cons c cs)))
    simp [replaceExt, hm, ih']

theorem data_mem_suffixChars (suf : String) (h : suf ∈ [".pdf", ".doc", ".docx", ".txt"]) :
    suf.data ∈ suffixChars := by
  simp only [List.mem_cons, List.mem_singleton, List.not_mem_nil, or_false] at h
  rcases h with h | h | h | h <;> subst h <;> decide

theorem mk_mem_suffixes (e : List Char) (h : e ∈ suffixChars) :
    String.mk e ∈ [".pdf", ".doc", ".docx", ".txt"] := by
  simp only [suffixChars, List.mem_cons, List.mem_singleton, List.not_mem_nil, or_false] at h
  rcases h with h | h | h | h <;> subst h <;> decide

/-! ## Candidate names: the claims -/

/-- C4: for a filename ending in `.pdf`, `.doc`, `.docx` or `.txt` the candidate name
derived on line 214 is the filename with exactly that one trailing suffix removed
and nothing else changed (`john.doe.pdf` gives `john.doe`, `a.pdf.pdf` gives `a.pdf`,
`x.docx` gives `x`); a filename ending in none of them is returned unchanged.  The
result mapping stores this name in the field `name` of each record. -/
theorem candidateName_strips_one_suffix (s : String) :
    (∀ suf : String, suf ∈ [".pdf", ".doc", ".docx", ".txt"] →
      candidateName (s ++ suf) = s) ∧
    ((∀ suf : String, suf ∈ [".pdf", ".doc", ".docx", ".txt"] → ¬ endsWith s suf) →
      candidateName s = s) ∧
    candidateName "john.doe.pdf" = "john.doe" ∧
    candidateName "a.pdf.pdf" = "a.pdf" ∧
    candidateName "x.docx" = "x" ∧
    (∀ (role : String) (result : RawResult),
      (mapResult role result).name = candidateName result.Resume) := by
  refine ⟨fun suf hsuf => ?_, fun h => ?_, by decide, by decide, by decide,
    fun _ _ => rfl⟩
  · show String.mk (replaceExt (s ++ suf).data) = s
    rw [String.data_append, replaceExt_append s.data suf.data (data_mem_suffixChars suf hsuf)]
  · show String.mk (replaceExt s.data) = s
    rw [replaceExt_of_no_suffix s.data (fun e he => h (String.mk e) (mk_mem_suffixes e he))]

theorem candidateName_strips_one_suffix_witness :
    candidateName ("john.doe" ++ ".pdf") = "john.doe" ∧
    (∀ suf : String, suf ∈ [".pdf", ".doc", ".docx", ".txt"] → ¬ endsWith "notes.md" suf) ∧
    candidateName "notes.md" = "notes.md" :=
  ⟨(candidateName_strips_one_suffix "john.doe").1 ".pdf" (by decide),
   by decide,
   (candidateName_strips_one_suffix "notes.md").2.1 (by decide)⟩

/-- C5: the filename `resume.PDF` passes the extension check of line 114 (its computed
extension is `pdf`), yet the name derived from it on line 214 is `resume.PDF` itself:
the extension is not stripped, because the pattern of line 214 only knows the
lower-case spellings. -/
theorem candidateName_keeps_upper_case_extension :
    fileExtension "resume.PDF" = "pdf" ∧
    isSupported ⟨"resume.PDF", "", 1024⟩ = true ∧
    candidateName "resume.PDF" = "resume.PDF" ∧
    candidateName "resume.PDF" ≠ "resume" := by
  decide

/-! ## File staging: auxiliary facts -/

/-- The two outcomes of one turn of the loop of `handleFiles`: the file is staged
at the end of the list without any notification, or the list is left alone and
one error notification is shown. -/
theorem handleFile_cases (s : AppState) (file : File) :
    (isSupported file = true ∧ (∀ f ∈ s.uploadedFiles, f.name ≠ file.name) ∧
      handleFile s file = { s with uploadedFiles := s.uploadedFiles ++ [file] }) ∨
    ((isSupported file = false ∨ ∃ f ∈ s.uploadedFiles, f.name = file.name) ∧
      ∃ msg, handleFile s file =
        { s with alerts := s.alerts ++ [⟨AlertKind.error, msg⟩] }) := by
  unfold handleFile
  cases hsup : isSupported file with
  | false =>
    right
    exact ⟨Or.inl rfl, _, rfl⟩
  | true =>
    cases hfind : s.uploadedFiles.find? (fun f => decide (f.name = file.name)) with
    | none =>
      left
      rw [List.find?_eq_none] at hfind
      refine ⟨rfl, fun f hf => ?_, by simp⟩
      simpa using hfind f hf
    | some g =>
      right
      have hmem := List.mem_of_find?_eq_some hfind
      have hp := List.find?_some hfind
      refine ⟨Or.inr ⟨g, hmem, by simpa using hp⟩, _, by simp; rfl⟩

theorem handleFile_nodup (s : AppState) (file : File)
    (h : (s.uploadedFiles.map File.name).Nodup) :
    ((handleFile s file).uploadedFiles.map File.name).Nodup := by
  rcases handleFile_cases s file with ⟨_, hfresh, heq⟩ | ⟨_, msg, heq⟩
  · rw [heq]
    simp only [List.map_append, List.map_cons, List.map_nil]
    rw [List.nodup_append]
    refine ⟨h, List.nodup_singleton _, ?_⟩
    intro a ha hb
    simp only [List.mem_singleton] at hb
    subst hb
    obtain ⟨f, hf, hname⟩ := List.mem_map.mp ha
    exact hfresh f hf hname
  · rw [heq]
    exact h

theorem handleFiles_nodup (files : List File) (s : AppState)
    (h : (s.uploadedFiles.map File.name).Nodup) :
    ((handleFiles files s).uploadedFiles.map File.name).Nodup := by
  unfold handleFiles
  induction files generalizing s with
  | nil => exact h
  | cons file files ih => exact ih (handleFile s file) (handleFile_nodup s file h)

theorem removeFile_nodup (filename : String) (s : AppState)
    (h : (s.uploadedFiles.map File.name).Nodup) :
    ((removeFile filename s).uploadedFiles.map File.name).Nodup :=
  h.sublist ((List.filter_sublist s.uploadedFiles).map File.name)

theorem runOps_nodup (ops : List StagingOp) (s : AppState)
    (h : (s.uploadedFiles.map File.name).Nodup) :
    ((runOps ops s).uploadedFiles.map File.name).Nodup := by
  unfold runOps
  induction ops generalizing s with
  | nil => exact h
  | cons op ops ih =>
    apply ih
    cases op with
    | addFiles files => exact handleFiles_nodup files s h
    | removeFile filename => exact removeFile_nodup filename s h

theorem toLower_dot_iff (c : Char) : Char.toLower c = '.' ↔ c = '.' := by
  constructor
  · intro h
    unfold Char.toLower at h
    by_cases hr : c.toNat ≥ 65 ∧ c.toNat ≤ 90
    · simp only [hr, and_self, if_true] at h
      exfalso
      obtain ⟨h₁, h₂⟩ := hr
      generalize c.toNat = n at h h₁ h₂
      interval_cases n <;> exact absurd h (by decide)
    · simpa [hr] using h
  · intro h
    subst h
    decide

theorem split_dot (cs : List Char) : split ('.' :: cs) = [] :: split cs := by
  simp [split]

theorem split_cons_of_ne (c : Char) (cs : List Char) (h : c ≠ '.') :
    split (c :: cs) =
      match split cs with
      | [] => [[c]]
      | piece :: pieces => (c :: piece) :: pieces := by
  simp [split, h]

theorem split_of_no_dot (cs : List Char) (h : '.' ∉ cs) : split cs = [cs] := by
  induction cs with
  | nil => rfl
  | cons c cs ih =>
    have hc : c ≠ '.' := fun hc => h (hc ▸ List.mem_cons_self _ _)
    have hcs : '.' ∉ cs := fun hm => h (List.mem_cons_of_mem _ hm)
    rw [split_cons_of_ne c cs hc, ih hcs]

theorem split_ne_nil (cs : List Char) : split cs ≠ [] := by
  cases cs with
  | nil => simp [split]
  | cons c cs =>
    by_cases h : c = '.'
    · subst h
      simp [split_dot]
    · rw [split_cons_of_ne c cs h]
      cases split cs <;> simp

theorem split_of_dot_mem (cs : List Char) (h : '.' ∈ cs) :
    ∃ x y ys, split cs = x :: y :: ys := by
  induction cs with
  | nil => simp at h
  | cons c cs ih =>
    by_cases hc : c = '.'
    · subst hc
      rw [split_dot]
      cases hs : split cs with
      | nil => exact absurd hs (split_ne_nil cs)
      | cons y ys => exact ⟨[], y, ys, rfl⟩
    · have hmem : '.' ∈ cs := by
        rcases List.mem_cons.mp h with h' | h'
        · exact absurd h'.symm hc
        · exact h'
      obtain ⟨x, y, ys, hs⟩ := ih hmem
      rw [split_cons_of_ne c cs hc, hs]
      exact ⟨c :: x, y, ys, rfl⟩

theorem pop_split_dot (cs : List Char) : pop (split ('.' :: cs)) = pop (split cs) := by
  rw [split_dot]
  cases hs : split cs with
  | nil => exact absurd hs (split_ne_nil cs)
  | cons y ys => simp only [pop, List.getLastD_cons]

theorem pop_split_cons_of_ne (c : Char) (cs : List Char) (hc : c ≠ '.') (h : '.' ∈ cs) :
    pop (split (c :: cs)) = pop (split cs) := by
  obtain ⟨x, y, ys, hs⟩ := split_of_dot_mem cs h
  rw [split_cons_of_ne c cs hc, hs]
  simp only [pop, List.getLastD_cons]

/-- The piece returned by `split(".").pop()` is what follows the last dot. -/
theorem pop_split_append (p e : List Char) (he : '.' ∉ e) :
    pop (split (p ++ '.' :: e)) = e := by
  induction p with
  | nil =>
    rw [List.nil_append, pop_split_dot, split_of_no_dot e he]
    rfl
  | cons c p ih =>
    by_cases hc : c = '.'
    · subst hc
      rw [List.cons_append, pop_split_dot, ih]
    · rw [List.cons_append, pop_split_cons_of_ne c _ hc (by simp), ih]

/-- Every string is either free of dots or ends in a dot followed by a dot-free piece. -/
theorem exists_last_dot (cs : List Char) :
    '.' ∉ cs ∨ ∃ p e, cs = p ++ '.' :: e ∧ '.' ∉ e := by
  induction cs with
  | nil => left; simp
  | cons c cs ih =>
    rcases ih with h | ⟨p, e, hcs, he⟩
    · by_cases hc : c = '.'
      · right
        exact ⟨[], cs, by rw [hc]; rfl, h⟩
      · left
        intro hm
        rcases List.mem_cons.mp hm with h' | h'
        · exact hc h'.symm
        · exact h h'
    · right
      exact ⟨c :: p, e, by rw [hcs]; rfl, he⟩


theorem no_dot_of_mem_extChars (x : List Char) (hx : x ∈ extChars) : '.' ∉ x := by
  simp only [extChars, List.mem_cons, List.mem_singleton, List.not_mem_nil, or_false] at hx
  rcases hx with h | h | h | h <;> subst h <;> decide

theorem dot_mem_map_toLower (l : List Char) : '.' ∈ l.map Char.toLower ↔ '.' ∈ l := by
  simp only [List.mem_map]
  constructor
  · rintro ⟨c, hc, h⟩
    rw [(toLower_dot_iff c).mp h] at hc
    exact hc
  · intro h
    exact ⟨'.', h, by decide⟩

theorem eq_of_append_dot_eq (a b x y : List Char) (hx : '.' ∉ x) (hy : '.' ∉ y)
    (h : a ++ '.' :: x = b ++ '.' :: y) : x = y := by
  induction a generalizing b with
  | nil =>
    cases b with
    | nil => simpa using h
    | cons d b =>
      exfalso
      simp only [List.nil_append, List.cons_append, List.cons.injEq] at h
      exact hx (h.2 ▸ List.mem_append_right b (List.mem_cons_self _ _))
  | cons c a ih =>
    cases b with
    | nil =>
      exfalso
      simp only [List.nil_append, List.cons_append, List.cons.injEq] at h
      exact hy (h.2 ▸ List.mem_append_right a (List.mem_cons_self _ _))
    | cons d b =>
      simp only [List.cons_append, List.cons.injEq] at h
      exact ih b h.2

/-- The extension check on the characters of a name: the lower-cased last piece is one
of the four extensions exactly when the lower-cased name ends in a dot followed by one
of them, or has no dot and is one of them. -/
theorem extension_check_chars (l : List Char) :
    (pop (split l)).map Char.toLower ∈ extChars ↔
      (∃ x ∈ extChars, List.IsSuffix ('.' :: x) (l.map Char.toLower)) ∨
        l.map Char.toLower ∈ extChars := by
  rcases exists_last_dot l with hno | ⟨p, e, hl, he⟩
  · rw [split_of_no_dot l hno]
    have hpop : pop [l] = l := rfl
    rw [hpop]
    constructor
    · exact Or.inr
    · rintro (⟨x, _, hsuf⟩ | h)
      · exfalso
        have hmem : '.' ∈ l.map Char.toLower := hsuf.subset (List.mem_cons_self _ _)
        exact hno ((dot_mem_map_toLower l).mp hmem)
      · exact h
  · subst hl
    rw [pop_split_append p e he]
    have hlow : (p ++ '.' :: e).map Char.toLower =
        p.map Char.toLower ++ '.' :: e.map Char.toLower := by
      rw [List.map_append, List.map_cons]
      rfl
    rw [hlow]
    have he' : '.' ∉ e.map Char.toLower := fun hm => he ((dot_mem_map_toLower e).mp hm)
    constructor
    · intro h
      exact Or.inl ⟨_, h, ⟨p.map Char.toLower, rfl⟩⟩
    · rintro (⟨x, hx, t, ht⟩ | h)
      · have := eq_of_append_dot_eq t (p.map Char.toLower) x (e.map Char.toLower)
          (no_dot_of_mem_extChars x hx) he' ht
        rw [← this]
        exact hx
      · exfalso
        exact no_dot_of_mem_extChars _ h (List.mem_append_right _ (List.mem_cons_self _ _))

theorem mk_mem_extensions (x : List Char) :
    String.mk x ∈ ["pdf", "doc", "docx", "txt"] ↔ x ∈ extChars := by
  have h₁ : ("pdf" : String) = String.mk ['p', 'd', 'f'] := rfl
  have h₂ : ("doc" : String) = String.mk ['d', 'o', 'c'] := rfl
  have h₃ : ("docx" : String) = String.mk ['d', 'o', 'c', 'x'] := rfl
  have h₄ : ("txt" : String) = String.mk ['t', 'x', 't'] := rfl
  have hinj : ∀ y : List Char, String.mk x = String.mk y ↔ x = y := fun y =>
    ⟨fun h => congrArg String.data h, fun h => congrArg String.mk h⟩
  simp only [h₁, h₂, h₃, h₄, extChars, List.mem_cons, List.mem_singleton, List.not_mem_nil,
    or_false, hinj]

/-- The condition of line 114, spelled out: the MIME type is one of the four supported
types, or the lower-cased name ends in `.pdf`, `.doc`, `.docx` or `.txt`, or the name
has no dot and is, up to case, one of `pdf`, `doc`, `docx`, `txt`. -/
theorem isSupported_iff (file : File) :
    isSupported file = true ↔
      file.type ∈ supportedTypes ∨
      (∃ suf ∈ [".pdf", ".doc", ".docx", ".txt"], endsWith (toLowerCase file.name) suf) ∨
      toLowerCase file.name ∈ ["pdf", "doc", "docx", "txt"] := by
  have hext : fileExtension file.name ∈ ["pdf", "doc", "docx", "txt"] ↔
      (∃ suf ∈ [".pdf", ".doc", ".docx", ".txt"], endsWith (toLowerCase file.name) suf) ∨
      toLowerCase file.name ∈ ["pdf", "doc", "docx", "txt"] := by
    unfold fileExtension toLowerCase
    rw [mk_mem_extensions, mk_mem_extensions, extension_check_chars]
    apply or_congr_left
    have h₁ : (".pdf" : String).data = ['.', 'p', 'd', 'f'] := rfl
    have h₂ : (".doc" : String).data = ['.', 'd', 'o', 'c'] := rfl
    have h₃ : (".docx" : String).data = ['.', 'd', 'o', 'c', 'x'] := rfl
    have h₄ : (".txt" : String).data = ['.', 't', 'x', 't'] := rfl
    simp only [extChars, endsWith, List.mem_cons, List.mem_singleton, List.not_mem_nil,
      or_false, exists_eq_or_imp, exists_eq_left, h₁, h₂, h₃, h₄]
  unfold isSupported
  rw [Bool.or_eq_true, decide_eq_true_eq, decide_eq_true_eq, hext]


/-! ## File staging: the claims -/

/-- C6: a file named `pdf` whose MIME type is empty has none of the four supported MIME
types and its name ends in none of `.pdf`, `.doc`, `.docx`, `.txt`, yet the condition of
line 114 accepts it, because `split(".").pop()` returns the whole name when the name
has no dot; `handleFiles` stages it and shows no error. -/
theorem handleFiles_accepts_bare_extension_name :
    (⟨"pdf", "", 1024⟩ : File).type ∉ supportedTypes ∧
    (∀ suf : String, suf ∈ [".pdf", ".doc", ".docx", ".txt"] →
      ¬ endsWith (toLowerCase "pdf") suf) ∧
    fileExtension "pdf" = "pdf" ∧
    isSupported ⟨"pdf", "", 1024⟩ = true ∧
    (handleFiles [⟨"pdf", "", 1024⟩] initialState).uploadedFiles = [⟨"pdf", "", 1024⟩] ∧
    (handleFiles [⟨"pdf", "", 1024⟩] initialState).alerts = [] := by
  decide

/-- C7: the staged list is unique by name.  Starting from an empty staged list, after
any sequence of `addFiles` and `removeFile` actions no two staged files have the same
name.  Adding a file whose name is already staged leaves the staged list unchanged and
shows one error notification (adding `resume1.pdf` twice leaves one staged file);
`removeFile(name)` leaves no file of that name staged and changes nothing when the name
is absent. -/
theorem staged_names_unique (s : AppState) :
    (∀ ops : List StagingOp,
      ((runOps ops { s with uploadedFiles := [] }).uploadedFiles.map File.name).Nodup) ∧
    (∀ file : File, (∃ f ∈ s.uploadedFiles, f.name = file.name) →
      (handleFiles [file] s).uploadedFiles = s.uploadedFiles ∧
      ∃ msg, (handleFiles [file] s).alerts = s.alerts ++ [⟨AlertKind.error, msg⟩]) ∧
    (∀ (t₁ t₂ : String) (n₁ n₂ : Nat),
      (handleFiles [⟨"resume1.pdf", t₂, n₂⟩]
        (handleFiles [⟨"resume1.pdf", t₁, n₁⟩]
          { s with uploadedFiles := [] })).uploadedFiles = [⟨"resume1.pdf", t₁, n₁⟩] ∧
      ∃ msg,
        (handleFiles [⟨"resume1.pdf", t₂, n₂⟩]
          (handleFiles [⟨"resume1.pdf", t₁, n₁⟩] { s with uploadedFiles := [] })).alerts =
          s.alerts ++ [⟨AlertKind.error, msg⟩]) ∧
    (∀ filename : String,
      (∀ f ∈ (removeFile filename s).uploadedFiles, f.name ≠ filename) ∧
      ((∀ f ∈ s.uploadedFiles, f.name ≠ filename) → removeFile filename s = s)) := by
  have hdup : ∀ (s : AppState) (file : File), (∃ f ∈ s.uploadedFiles, f.name = file.name) →
      (handleFiles [file] s).uploadedFiles = s.uploadedFiles ∧
      ∃ msg, (handleFiles [file] s).alerts = s.alerts ++ [⟨AlertKind.error, msg⟩] := by
    intro s file hex
    show (handleFile s file).uploadedFiles = _ ∧ ∃ msg, (handleFile s file).alerts = _
    rcases handleFile_cases s file with ⟨_, hfresh, _⟩ | ⟨_, msg, heq⟩
    · obtain ⟨f, hf, hname⟩ := hex
      exact absurd hname (hfresh f hf)
    · rw [heq]
      exact ⟨rfl, msg, rfl⟩
  have hfirst : ∀ (t₁ : String) (n₁ : Nat),
      handleFiles [⟨"resume1.pdf", t₁, n₁⟩] { s with uploadedFiles := [] } =
        { s with uploadedFiles := [⟨"resume1.pdf", t₁, n₁⟩] } := by
    intro t₁ n₁
    have hext : fileExtension "resume1.pdf" = "pdf" := by decide
    have hsup : isSupported ⟨"resume1.pdf", t₁, n₁⟩ = true := by
      simp [isSupported, hext]
    simp [handleFiles, handleFile, hsup]
  refine ⟨fun ops => runOps_nodup ops _ (by simp), hdup s, fun t₁ t₂ n₁ n₂ => ?_,
    fun filename => ⟨fun f hf => ?_, fun h => ?_⟩⟩
  · rw [hfirst]
    exact hdup _ ⟨"resume1.pdf", t₂, n₂⟩ ⟨_, List.mem_singleton.mpr rfl, rfl⟩
  · have := (List.mem_filter.mp hf).2
    simpa using this
  · show ({ s with uploadedFiles := _ } : AppState) = s
    have hfil : s.uploadedFiles.filter (fun file => decide (file.name ≠ filename)) =
        s.uploadedFiles := by
      rw [List.filter_eq_self]
      intro f hf
      simpa using h f hf
    rw [hfil]

theorem staged_names_unique_witness :
    ((runOps [StagingOp.addFiles [⟨"a.pdf", "application/pdf", 10⟩, ⟨"a.pdf", "", 20⟩],
        StagingOp.removeFile "b.txt", StagingOp.addFiles [⟨"b.txt", "text/plain", 5⟩]]
        { initialState with uploadedFiles := [] }).uploadedFiles.map File.name).Nodup ∧
    (handleFiles [⟨"a.pdf", "", 20⟩]
        { initialState with uploadedFiles := [⟨"a.pdf", "application/pdf", 10⟩] }).uploadedFiles =
      [⟨"a.pdf", "application/pdf", 10⟩] ∧
    removeFile "b.txt" { initialState with uploadedFiles := [⟨"a.pdf", "application/pdf", 10⟩] } =
      { initialState with uploadedFiles := [⟨"a.pdf", "application/pdf", 10⟩] } :=
  ⟨(staged_names_unique initialState).1 _,
   ((staged_names_unique
      { initialState with uploadedFiles := [⟨"a.pdf", "application/pdf", 10⟩] }).2.1
      ⟨"a.pdf", "", 20⟩ ⟨_, List.mem_singleton.mpr rfl, rfl⟩).1,
   ((staged_names_unique
      { initialState with uploadedFiles := [⟨"a.pdf", "application/pdf", 10⟩] }).2.2.2
      "b.txt").2 (by decide)⟩

/-! ## Submission: the claims -/

/-- C8: the submit handler issues the request of `processResumes` if and only if at
least one file is staged and a role is selected.  With no staged file it stops with the
error `Please upload at least one resume.`, with files but an empty role it stops with
`Please select a job role.`; in both cases one error notification is the only change to
the state: no request is issued and the staged files, the selected role and the result
set stay as they were. -/
theorem submitHandler_validates (s : AppState) :
    ((submitHandler s).requests = s.requests ++ [⟨s.uploadedFiles, s.selectedJobRole⟩] ↔
      (0 < s.uploadedFiles.length ∧ s.selectedJobRole ≠ "")) ∧
    (0 < s.uploadedFiles.length ∧ s.selectedJobRole ≠ "" →
      submitHandler s = processResumes s) ∧
    (s.uploadedFiles.length = 0 →
      submitHandler s =
        { s with alerts :=
            s.alerts ++ [⟨AlertKind.error, "Please upload at least one resume."⟩] }) ∧
    (0 < s.uploadedFiles.length ∧ s.selectedJobRole = "" →
      submitHandler s =
        { s with alerts := s.alerts ++ [⟨AlertKind.error, "Please select a job role."⟩] }) := by
  unfold submitHandler
  by_cases h0 : s.uploadedFiles.length = 0
  · simp [h0, showErrorAlert, showAlert]
  · have hpos : 0 < s.uploadedFiles.length := Nat.pos_of_ne_zero h0
    by_cases hr : s.selectedJobRole = ""
    · simp [h0, hr, hpos, showErrorAlert, showAlert]
    · simp [h0, hr, hpos, processResumes]

theorem submitHandler_validates_witness :
    submitHandler { initialState with
        uploadedFiles := [⟨"a.pdf", "application/pdf", 10⟩],
        selectedJobRole := "data-analyst" } =
      processResumes { initialState with
        uploadedFiles := [⟨"a.pdf", "application/pdf", 10⟩],
        selectedJobRole := "data-analyst" } ∧
    submitHandler initialState =
      { initialState with
        alerts := [⟨AlertKind.error, "Please upload at least one resume."⟩] } ∧
    submitHandler { initialState with uploadedFiles := [⟨"a.pdf", "application/pdf", 10⟩] } =
      { initialState with
        uploadedFiles := [⟨"a.pdf", "application/pdf", 10⟩],
        alerts := [⟨AlertKind.error, "Please select a job role."⟩] } :=
  ⟨(submitHandler_validates _).2.1 ⟨by decide, by decide⟩,
   (submitHandler_validates initialState).2.2.1 (by decide),
   (submitHandler_validates _).2.2.2 ⟨by decide, by decide⟩⟩

/-! ## Score badge: the claims -/

theorem tierColours_injective (t u : Tier) (h : tierColours t = tierColours u) : t = u := by
  revert h
  cases t <;> cases u <;> decide

/-- C9: `getScoreColor` gives each score the colour pair of exactly one of four tiers:
tier A (`#38ef7d`, `#11998e`) for a score of at least 90, tier B (`#00f2fe`, `#4facfe`)
from 75 up to 90, tier C (`#f38181`, `#fce38a`) from 60 up to 75, and tier D
(`#3f5efb`, `#fc466b`) below 60; the light and the dark colour of one score belong to the
same tier.  A score of 82 is in tier B. -/
theorem getScoreColor_tiers (score : ℚ) :
    (90 ≤ score →
      (getScoreColor score false, getScoreColor score true) = tierColours Tier.A) ∧
    (75 ≤ score ∧ score < 90 →
      (getScoreColor score false, getScoreColor score true) = tierColours Tier.B) ∧
    (60 ≤ score ∧ score < 75 →
      (getScoreColor score false, getScoreColor score true) = tierColours Tier.C) ∧
    (score < 60 →
      (getScoreColor score false, getScoreColor score true) = tierColours Tier.D) ∧
    (∃! t : Tier, (getScoreColor score false, getScoreColor score true) = tierColours t) ∧
    (getScoreColor 82 false, getScoreColor 82 true) = tierColours Tier.B := by
  have hA : 90 ≤ score →
      (getScoreColor score false, getScoreColor score true) = tierColours Tier.A := by
    intro h
    simp [getScoreColor, parseFloat, tierColours, h]
  have hB : 75 ≤ score ∧ score < 90 →
      (getScoreColor score false, getScoreColor score true) = tierColours Tier.B := by
    rintro ⟨h₁, h₂⟩
    simp [getScoreColor, parseFloat, tierColours, h₁, not_le.mpr h₂]
  have hC : 60 ≤ score ∧ score < 75 →
      (getScoreColor score false, getScoreColor score true) = tierColours Tier.C := by
    rintro ⟨h₁, h₂⟩
    have h₃ : ¬ (90 ≤ score) := by linarith
    simp [getScoreColor, parseFloat, tierColours, h₁, not_le.mpr h₂, h₃]
  have hD : score < 60 →
      (getScoreColor score false, getScoreColor score true) = tierColours Tier.D := by
    intro h
    have h₁ : ¬ (90 ≤ score) := by linarith
    have h₂ : ¬ (75 ≤ score) := by linarith
    simp [getScoreColor, parseFloat, tierColours, not_le.mpr h, h₁, h₂]
  have h82 : (getScoreColor 82 false, getScoreColor 82 true) = tierColours Tier.B := by
    norm_num [getScoreColor, parseFloat, tierColours]
  refine ⟨hA, hB, hC, hD, ?_, h82⟩
  have hex : ∃ t : Tier,
      (getScoreColor score false, getScoreColor score true) = tierColours t := by
    by_cases h90 : 90 ≤ score
    · exact ⟨Tier.A, hA h90⟩
    · by_cases h75 : 75 ≤ score
      · exact ⟨Tier.B, hB ⟨h75, not_le.mp h90⟩⟩
      · by_cases h60 : 60 ≤ score
        · exact ⟨Tier.C, hC ⟨h60, not_le.mp h75⟩⟩
        · exact ⟨Tier.D, hD (not_le.mp h60)⟩
  obtain ⟨t, ht⟩ := hex
  exact ⟨t, ht, fun u hu => tierColours_injective u t (hu.symm.trans ht)⟩

theorem getScoreColor_tiers_witness :
    (getScoreColor 95 false, getScoreColor 95 true) = ("#38ef7d", "#11998e") ∧
    (getScoreColor 82 false, getScoreColor 82 true) = ("#00f2fe", "#4facfe") ∧
    (getScoreColor 60 false, getScoreColor 60 true) = ("#f38181", "#fce38a") ∧
    (getScoreColor (119 / 2) false, getScoreColor (119 / 2) true) = ("#3f5efb", "#fc466b") :=
  ⟨(getScoreColor_tiers 95).1 (by norm_num),
   (getScoreColor_tiers 82).2.1 ⟨by norm_num, by norm_num⟩,
   (getScoreColor_tiers 60).2.2.1 ⟨by norm_num, by norm_num⟩,
   (getScoreColor_tiers (119 / 2)).2.2.2.1 (by norm_num)⟩

/-! ## Pagination: auxiliary facts -/

theorem pageCount_eq (s : AppState) :
    pageCount s = (((s.currentResults.length + 9) / 10 : ℕ) : ℤ) := by
  unfold pageCount itemsPerPage
  have h₁ : s.currentResults.length ≤ 10 * ((s.currentResults.length + 9) / 10) := by
    omega
  have h₂ : 10 * ((s.currentResults.length + 9) / 10) < s.currentResults.length + 10 := by
    omega
  generalize (s.currentResults.length + 9) / 10 = q at h₁ h₂
  generalize s.currentResults.length = n at h₁ h₂
  have h₁' : (n : ℚ) ≤ 10 * (q : ℚ) := by exact_mod_cast h₁
  have h₂' : 10 * (q : ℚ) < (n : ℚ) + 10 := by exact_mod_cast h₂
  rw [Int.ceil_eq_iff, Int.cast_natCast, Nat.cast_ofNat]
  constructor
  · rw [lt_div_iff₀ (by norm_num : (0 : ℚ) < 10)]
    linarith
  · rw [div_le_iff₀ (by norm_num : (0 : ℚ) < 10)]
    linarith

theorem pageCount_nonneg (s : AppState) : 0 ≤ pageCount s := by
  rw [pageCount_eq]
  exact Int.natCast_nonneg _

theorem filter_range_eq_singleton (n c : ℕ) (hc : c < n) :
    (List.range n).filter (fun k => decide (k = c)) = [c] := by
  induction n with
  | zero => omega
  | succ n ih =>
    rw [List.range_succ, List.filter_append]
    by_cases h : c < n
    · rw [ih h]
      have : n ≠ c := by omega
      simp [this]
    · have hcn : c = n := by omega
      subst hcn
      have hnil : (List.range c).filter (fun k => decide (k = c)) = [] := by
        rw [List.filter_eq_nil_iff]
        intro k hk
        have := List.mem_range.mp hk
        simp
        omega
      rw [hnil]
      simp

theorem renderPagination_of_two_le (s : AppState) (h : 2 ≤ pageCount s) :
    renderPagination s =
      prevItem s ::
        ((List.range (pageCount s).toNat).map (fun (k : ℕ) => pageItem s ((k : Int) + 1)) ++
          [nextItem s]) := by
  unfold renderPagination
  rw [if_neg (by omega)]

/-! ## Pagination: the claims -/

/-- C10: with a page size of 10 the page count of the pagination control is the ceiling
of n/10, that is the least number of pages of ten that hold the n records.  With no
record, rendering page 1 gives no table row and no pagination control; the control is
empty whenever the page count is at most 1.  When the page count is at least 2 the
control consists of a prev arrow, one entry per page in order, and a next arrow, and an
entry is marked active exactly when it is the entry of the current page (so exactly one
entry is active when the current page is one of the pages). -/
theorem pagination_control (s : AppState) :
    pageCount s = ⌈(s.currentResults.length : ℚ) / 10⌉ ∧
    (∀ P : ℤ, pageCount s ≤ P ↔ (s.currentResults.length : ℤ) ≤ 10 * P) ∧
    renderTable { s with currentResults := [], currentPage := 1 } = [] ∧
    renderPagination { s with currentResults := [], currentPage := 1 } = [] ∧
    (pageCount s ≤ 1 → renderPagination s = []) ∧
    (2 ≤ pageCount s →
      (renderPagination s).map PageItem.label =
        PageLabel.prev ::
          ((List.range (pageCount s).toNat).map (fun (k : ℕ) => PageLabel.page ((k : ℤ) + 1)) ++
            [PageLabel.next]) ∧
      (renderPagination s).length = (pageCount s).toNat + 2 ∧
      (∀ item ∈ renderPagination s,
        item.active = true ↔ item.label = PageLabel.page s.currentPage) ∧
      (1 ≤ s.currentPage ∧ s.currentPage ≤ pageCount s →
        ((renderPagination s).filter (fun item => item.active)).map PageItem.label =
          [PageLabel.page s.currentPage])) := by
  refine ⟨?_, ?_, ?_, ?_, ?_, ?_⟩
  · simp [pageCount, itemsPerPage]
  · intro P
    rw [pageCount_eq]
    omega
  · simp [renderTable, paginatedResults, slice]
  · have h0 : pageCount { s with currentResults := [], currentPage := 1 } = 0 := by
      rw [pageCount_eq]
      simp
    simp [renderPagination, h0]
  · intro h
    simp [renderPagination, h]
  · intro h
    rw [renderPagination_of_two_le s h]
    refine ⟨?_, ?_, ?_, ?_⟩
    · simp [prevItem, pageItem, nextItem, Function.comp_def]
    · simp
    · intro item hitem
      simp only [List.mem_cons, List.mem_append, List.mem_map, List.mem_range,
        List.mem_singleton, List.not_mem_nil, or_false] at hitem
      rcases hitem with rfl | ⟨k, _, rfl⟩ | rfl
      · simp [prevItem]
      · simp [pageItem]
      · simp [nextItem]
    · rintro ⟨h₁, h₂⟩
      have hmid : ((List.range (pageCount s).toNat).map
            (fun (k : ℕ) => pageItem s ((k : Int) + 1))).filter (fun item => item.active) =
          [pageItem s s.currentPage] := by
        rw [List.filter_map]
        have hcongr : (List.range (pageCount s).toNat).filter
              ((fun item : PageItem => item.active) ∘ fun (k : ℕ) => pageItem s ((k : Int) + 1)) =
            (List.range (pageCount s).toNat).filter
              (fun k => decide (k = (s.currentPage - 1).toNat)) := by
          apply List.filter_congr
          intro k _
          simp only [Function.comp, pageItem]
          rw [decide_eq_decide]
          omega
        rw [hcongr, filter_range_eq_singleton _ _ (by omega)]
        simp only [List.map_cons, List.map_nil]
        congr 2
        omega
      rw [List.filter_cons, List.filter_append, hmid]
      simp [prevItem, nextItem, pageItem]

theorem pagination_control_witness :
    renderPagination initialState = [] ∧
    ((renderPagination (sampleState 25 2)).filter (fun item => item.active)).map
      PageItem.label = [PageLabel.page 2] :=
  ⟨(pagination_control initialState).2.2.2.2.1 (by rw [pageCount_eq]; decide),
   ((pagination_control (sampleState 25 2)).2.2.2.2.2
      (by rw [pageCount_eq]; decide)).2.2.2 ⟨by decide, by rw [pageCount_eq]; decide⟩⟩

/-! ## Return to the upload view: the claims -/

/-- C11: `goBackToUpload` empties the result set and sets the current page to 1, but it
leaves `sortOrder` as it was: after a click on the name header of a received result set,
going back leaves the sort column `name` and the direction asc, and after a click on the
score header it leaves the direction asc, not the initial values score and desc. -/
theorem goBackToUpload_keeps_sortOrder :
    (∀ s : AppState,
      (goBackToUpload s).currentResults = [] ∧ (goBackToUpload s).currentPage = 1 ∧
      (goBackToUpload s).sortOrder = s.sortOrder) ∧
    (∀ lower : String → String,
      (goBackToUpload (sortTable lower "name" twoFormatsSession)).sortOrder =
        ⟨"name", Direction.asc⟩) ∧
    (∀ lower : String → String,
      (goBackToUpload (sortTable lower "score" twoFormatsSession)).sortOrder =
        ⟨"score", Direction.asc⟩) ∧
    (∀ lower : String → String,
      (goBackToUpload (sortTable lower "name" twoFormatsSession)).sortOrder ≠
        initialState.sortOrder) ∧
    (∀ lower : String → String,
      (goBackToUpload (sortTable lower "score" twoFormatsSession)).sortOrder ≠
        initialState.sortOrder) := by
  have hname : ∀ lower : String → String,
      (goBackToUpload (sortTable lower "name" twoFormatsSession)).sortOrder =
        ⟨"name", Direction.asc⟩ := fun _ => rfl
  have hscore : ∀ lower : String → String,
      (goBackToUpload (sortTable lower "score" twoFormatsSession)).sortOrder =
        ⟨"score", Direction.asc⟩ := fun _ => rfl
  refine ⟨fun s => ⟨rfl, rfl, rfl⟩, hname, hscore, fun lower => ?_, fun lower => ?_⟩
  · rw [hname lower]
    decide
  · rw [hscore lower]
    decide

/-! ## Page range: auxiliary facts -/

theorem pageCount_congr (s t : AppState)
    (h : s.currentResults.length = t.currentResults.length) : pageCount s = pageCount t := by
  rw [pageCount_eq, pageCount_eq, h]

theorem click_currentResults (item : PageItem) (s : AppState) :
    (click item s).currentResults = s.currentResults := by
  unfold click
  cases item.onClick with
  | none => rfl
  | some a => cases a <;> rfl

theorem sortTable_length (lower : String → String) (column : String) (s : AppState) :
    (sortTable lower column s).currentResults.length = s.currentResults.length :=
  (sort_perm _ _).length_eq

theorem mem_renderPagination (s : AppState) (item : PageItem)
    (h : item ∈ renderPagination s) :
    2 ≤ pageCount s ∧
      (item = prevItem s ∨ item = nextItem s ∨
        ∃ i : ℤ, 1 ≤ i ∧ i ≤ pageCount s ∧ item = pageItem s i) := by
  by_cases hp : pageCount s ≤ 1
  · simp [renderPagination, hp] at h
  · have h2 : 2 ≤ pageCount s := by omega
    rw [renderPagination_of_two_le s h2] at h
    refine ⟨h2, ?_⟩
    simp only [List.mem_cons, List.mem_append, List.mem_map, List.mem_range,
      List.mem_singleton, List.not_mem_nil, or_false] at h
    rcases h with h | ⟨k, hk, h⟩ | h
    · exact Or.inl h
    · exact Or.inr (Or.inr ⟨(k : ℤ) + 1, by omega, by omega, h.symm⟩)
    · exact Or.inr (Or.inl h)

/-- A click on a rendered element of the control keeps the current page among the pages. -/
theorem click_in_range (s : AppState) (item : PageItem) (h : item ∈ renderPagination s)
    (h₁ : 1 ≤ s.currentPage) (h₂ : s.currentPage ≤ pageCount s) :
    1 ≤ (click item s).currentPage ∧ (click item s).currentPage ≤ pageCount s := by
  obtain ⟨_, hitem | hitem | ⟨i, hi₁, hi₂, hitem⟩⟩ := mem_renderPagination s item h
  · subst hitem
    by_cases hc : s.currentPage > 1
    · simp only [click, prevItem, hc, if_true, runAction]
      omega
    · simp only [click, prevItem, hc, if_false]
      omega
  · subst hitem
    by_cases hc : s.currentPage < pageCount s
    · simp only [click, nextItem, hc, if_true, runAction]
      omega
    · simp only [click, nextItem, hc, if_false]
      omega
  · subst hitem
    by_cases hc : i ≠ s.currentPage
    · have hgo : click (pageItem s i) s = { s with currentPage := i } := by
        simp [click, pageItem, hc, runAction]
      rw [hgo]
      exact ⟨hi₁, hi₂⟩
    · have hstay : click (pageItem s i) s = s := by
        simp [click, pageItem, hc]
      rw [hstay]
      exact ⟨h₁, h₂⟩

theorem handleEvent_in_range (lower : String → String) (s : AppState) (e : ViewEvent)
    (h₁ : 1 ≤ s.currentPage) (h₂ : s.currentPage ≤ pageCount s) :
    1 ≤ (handleEvent lower s e).currentPage ∧
      (handleEvent lower s e).currentPage ≤ pageCount (handleEvent lower s e) ∧
      pageCount (handleEvent lower s e) = pageCount s := by
  cases e with
  | clickPagination k =>
    cases hk : (renderPagination s)[k]? with
    | none =>
      have heq : handleEvent lower s (ViewEvent.clickPagination k) = s := by
        simp only [handleEvent, hk]
      rw [heq]
      exact ⟨h₁, h₂, rfl⟩
    | some item =>
      have heq : handleEvent lower s (ViewEvent.clickPagination k) = click item s := by
        simp only [handleEvent, hk]
      have hpc : pageCount (click item s) = pageCount s :=
        pageCount_congr _ _ (congrArg List.length (click_currentResults item s))
      have hin := click_in_range s item (List.getElem?_mem hk) h₁ h₂
      rw [heq, hpc]
      exact ⟨hin.1, hin.2, rfl⟩
  | clickHeader column =>
    have heq : handleEvent lower s (ViewEvent.clickHeader column) =
        sortTable lower column s := rfl
    have hpc : pageCount (sortTable lower column s) = pageCount s :=
      pageCount_congr _ _ (sortTable_length lower column s)
    have hcp : (sortTable lower column s).currentPage = s.currentPage := rfl
    rw [heq, hpc, hcp]
    exact ⟨h₁, h₂, rfl⟩

theorem runEvents_in_range (lower : String → String) (events : List ViewEvent)
    (s : AppState) (h₁ : 1 ≤ s.currentPage) (h₂ : s.currentPage ≤ pageCount s) :
    1 ≤ (runEvents lower events s).currentPage ∧
      (runEvents lower events s).currentPage ≤ pageCount (runEvents lower events s) ∧
      pageCount (runEvents lower events s) = pageCount s := by
  unfold runEvents
  induction events generalizing s with
  | nil => exact ⟨h₁, h₂, rfl⟩
  | cons e events ih =>
    obtain ⟨h₁', h₂', h₃'⟩ := handleEvent_in_range lower s e h₁ h₂
    obtain ⟨g₁, g₂, g₃⟩ := ih (handleEvent lower s e) h₁' h₂'
    exact ⟨g₁, g₂, g₃.trans h₃'⟩

/-! ## Page range: the claims -/

/-- C12: the current page never leaves the valid range.  For a result set with at least
one page and starting from page 1, after any sequence of clicks on elements of the
pagination control and on sortable headers the current page is between 1 and the page
count, which itself does not change.  The prev element has a handler only when the
current page is above 1 and the next element only when it is below the page count, so a
click on prev on page 1 or on next on the last page leaves the state unchanged. -/
theorem currentPage_in_range (lower : String → String) (s : AppState) :
    (s.currentPage = 1 → 1 ≤ pageCount s → ∀ events : List ViewEvent,
      1 ≤ (runEvents lower events s).currentPage ∧
      (runEvents lower events s).currentPage ≤ pageCount (runEvents lower events s) ∧
      pageCount (runEvents lower events s) = pageCount s) ∧
    ((prevItem s).onClick ≠ none ↔ s.currentPage > 1) ∧
    ((nextItem s).onClick ≠ none ↔ s.currentPage < pageCount s) ∧
    (s.currentPage = 1 → click (prevItem s) s = s) ∧
    (s.currentPage = pageCount s → click (nextItem s) s = s) ∧
    (2 ≤ pageCount s →
      (renderPagination s)[0]? = some (prevItem s) ∧
      (renderPagination s)[(pageCount s).toNat + 1]? = some (nextItem s)) := by
  refine ⟨fun h₁ hP events => runEvents_in_range lower events s (by omega) (by omega),
    ?_, ?_, fun h => ?_, fun h => ?_, fun h => ?_⟩
  · by_cases hc : s.currentPage > 1 <;> simp [prevItem, hc]
  · by_cases hc : s.currentPage < pageCount s <;> simp [nextItem, hc]
  · simp [click, prevItem, h]
  · simp [click, nextItem, h]
  · rw [renderPagination_of_two_le s h]
    refine ⟨by simp, ?_⟩
    rw [List.getElem?_cons_succ]
    have hlen : ((List.range (pageCount s).toNat).map
        (fun (k : ℕ) => pageItem s ((k : Int) + 1))).length = (pageCount s).toNat := by
      simp
    have hlast := List.getElem?_concat_length
      ((List.range (pageCount s).toNat).map (fun (k : ℕ) => pageItem s ((k : Int) + 1)))
      (nextItem s)
    rw [hlen] at hlast
    exact hlast

theorem currentPage_in_range_witness :
    (1 ≤ (runEvents toLowerCase [ViewEvent.clickPagination 4, ViewEvent.clickPagination 4,
        ViewEvent.clickPagination 4, ViewEvent.clickHeader "name",
        ViewEvent.clickPagination 0] (sampleState 25 1)).currentPage ∧
      (runEvents toLowerCase [ViewEvent.clickPagination 4, ViewEvent.clickPagination 4,
        ViewEvent.clickPagination 4, ViewEvent.clickHeader "name",
        ViewEvent.clickPagination 0] (sampleState 25 1)).currentPage ≤
        pageCount (runEvents toLowerCase
          [ViewEvent.clickPagination 4, ViewEvent.clickPagination 4,
          ViewEvent.clickPagination 4, ViewEvent.clickHeader "name",
          ViewEvent.clickPagination 0] (sampleState 25 1)) ∧
      pageCount (runEvents toLowerCase
        [ViewEvent.clickPagination 4, ViewEvent.clickPagination 4,
        ViewEvent.clickPagination 4, ViewEvent.clickHeader "name",
        ViewEvent.clickPagination 0] (sampleState 25 1)) = pageCount (sampleState 25 1)) ∧
    click (prevItem (sampleState 25 1)) (sampleState 25 1) = sampleState 25 1 ∧
    click (nextItem (sampleState 25 3)) (sampleState 25 3) = sampleState 25 3 :=
  ⟨(currentPage_in_range toLowerCase (sampleState 25 1)).1 rfl
      (by rw [pageCount_eq]; decide) _,
   (currentPage_in_range toLowerCase (sampleState 25 1)).2.2.2.1 rfl,
   (currentPage_in_range toLowerCase (sampleState 25 3)).2.2.2.2.1
      (by rw [pageCount_eq]; decide)⟩

/-! ## Detail modal: auxiliary facts -/

theorem showCandidateModal_of_find (candidateName : String) (s : AppState) (c : Candidate)
    (h : s.currentResults.find? (fun r => decide (r.name = candidateName)) = some c) :
    showCandidateModal candidateName s =
      ({ s with currentModalFilename := candidateName }, some c) := by
  simp only [showCandidateModal, h]

/-- The lookup of line 495 returns the first record that bears the name. -/
theorem find_first_of_name (pre post : List Candidate) (r : Candidate)
    (h : ∀ x ∈ pre, x.name ≠ r.name) :
    (pre ++ r :: post).find? (fun x => decide (x.name = r.name)) = some r := by
  have hpre : pre.find? (fun x => decide (x.name = r.name)) = none := by
    rw [List.find?_eq_none]
    intro x hx
    simpa using h x hx
  rw [List.find?_append, hpre]
  simp

/-! ## Detail modal: the claims -/

/-- C13, as stated, fails: with `cv.pdf` and `cv.docx` staged and scored, the result set
holds two records named `cv`; the view-details button of the second row passes `cv`, and
the lookup of line 495 selects the first record, whose score is 82, not the record of
the row, whose score is 40. -/
theorem showCandidateModal_shows_other_record :
    twoFormatsSession.requests.length = 1 ∧
    twoFormatsSession.currentResults =
      [mapResult "data-analyst" (sampleResult "cv.pdf" 82),
       mapResult "data-analyst" (sampleResult "cv.docx" 40)] ∧
    (renderTable twoFormatsSession).map Row.onclickName = ["cv", "cv"] ∧
    isPlainRecord (mapResult "data-analyst" (sampleResult "cv.docx" 40)) = true ∧
    viewDetailsArgument (fun _ => none)
      (mapResult "data-analyst" (sampleResult "cv.docx" 40)) = some "cv" ∧
    (clickViewDetails (fun _ => none)
      (mapResult "data-analyst" (sampleResult "cv.docx" 40))
      twoFormatsSession).2 = some (mapResult "data-analyst" (sampleResult "cv.pdf" 82)) ∧
    (showCandidateModal
      (mapResult "data-analyst" (sampleResult "cv.docx" 40)).name
      twoFormatsSession).2 = some (mapResult "data-analyst" (sampleResult "cv.pdf" 82)) ∧
    (showCandidateModal
      (mapResult "data-analyst" (sampleResult "cv.docx" 40)).name
      twoFormatsSession).2 ≠ some (mapResult "data-analyst" (sampleResult "cv.docx" 40)) := by
  decide

/-- C13, amended: for every record `r` of the result set, `showCandidateModal` called
with the name of `r` finds a candidate, so that call is never a lookup miss; the
candidate found is a record of the result set with the name of `r`, and it is `r` itself
whenever no record before `r` in the result set has the same name, in particular when
the candidate names are pairwise distinct.  The button of the row of `r` makes this call
with the name of `r` when the name, the role and the first three skills of `r` contain
no markup or quoting character; nothing is said of what the button passes otherwise. -/
theorem showCandidateModal_finds_named (browser : Candidate → Option String)
    (s : AppState) :
    (∀ r ∈ s.currentResults, ∃ c,
      showCandidateModal r.name s =
        ({ s with currentModalFilename := r.name }, some c) ∧
      c ∈ s.currentResults ∧ c.name = r.name) ∧
    (∀ r : Candidate, isPlainRecord r = true →
      viewDetailsArgument browser r = some r.name ∧
      clickViewDetails browser r s = showCandidateModal r.name s) ∧
    (∀ (pre post : List Candidate) (r : Candidate),
      s.currentResults = pre ++ r :: post → (∀ x ∈ pre, x.name ≠ r.name) →
      (showCandidateModal r.name s).2 = some r) ∧
    ((s.currentResults.map Candidate.name).Nodup →
      ∀ r ∈ s.currentResults, (showCandidateModal r.name s).2 = some r) := by
  have hfirst : ∀ (pre post : List Candidate) (r : Candidate),
      s.currentResults = pre ++ r :: post → (∀ x ∈ pre, x.name ≠ r.name) →
      (showCandidateModal r.name s).2 = some r := by
    intro pre post r hres hpre
    have hfind : s.currentResults.find? (fun x => decide (x.name = r.name)) = some r := by
      rw [hres]
      exact find_first_of_name pre post r hpre
    rw [showCandidateModal_of_find r.name s r hfind]
  refine ⟨fun r hr => ?_, fun r hplain => ?_, hfirst, fun hnd r hr => ?_⟩
  · have hsome : (s.currentResults.find? (fun x => decide (x.name = r.name))).isSome := by
      rw [List.find?_isSome]
      exact ⟨r, hr, by simp⟩
    obtain ⟨c, hc⟩ := Option.isSome_iff_exists.mp hsome
    refine ⟨c, showCandidateModal_of_find r.name s c hc, List.mem_of_find?_eq_some hc, ?_⟩
    simpa using List.find?_some hc
  · have harg : viewDetailsArgument browser r = some r.name := by
      simp only [viewDetailsArgument, hplain, if_true]
    refine ⟨harg, ?_⟩
    simp only [clickViewDetails, harg]
  · obtain ⟨pre, post, hres⟩ := List.append_of_mem hr
    refine hfirst pre post r hres (fun x hx hname => ?_)
    rw [hres, List.map_append, List.map_cons, List.nodup_append] at hnd
    exact hnd.2.2 (List.mem_map_of_mem Candidate.name hx)
      (hname ▸ List.mem_cons_self _ _)

theorem showCandidateModal_finds_named_witness :
    clickViewDetails (fun _ => none) (mapResult "data-analyst" (sampleResult "cv.docx" 40))
      twoFormatsSession = showCandidateModal "cv" twoFormatsSession ∧
    (showCandidateModal "cv" twoFormatsSession).2 =
      some (mapResult "data-analyst" (sampleResult "cv.pdf" 82)) ∧
    (showCandidateModal "b"
      (receiveResults [sampleResult "a.pdf" 82, sampleResult "b.docx" 40]
        initialState)).2 = some (mapResult "" (sampleResult "b.docx" 40)) :=
  ⟨((showCandidateModal_finds_named (fun _ => none) twoFormatsSession).2.1
      (mapResult "data-analyst" (sampleResult "cv.docx" 40)) (by decide)).2,
   (showCandidateModal_finds_named (fun _ => none) twoFormatsSession).2.2.1
      [] [mapResult "data-analyst" (sampleResult "cv.docx" 40)]
      (mapResult "data-analyst" (sampleResult "cv.pdf" 82)) (by decide) (by decide),
   (showCandidateModal_finds_named (fun _ => none)
      (receiveResults [sampleResult "a.pdf" 82, sampleResult "b.docx" 40] initialState)).2.2.2
      (by decide) (mapResult "" (sampleResult "b.docx" 40)) (by decide)⟩

/-! ## Pages: auxiliary facts -/

/-- On indices `0 ≤ a ≤ b`, `slice` drops `a` elements and keeps the next `b - a`. -/
theorem slice_of_le {α : Type} (l : List α) (a b : ℕ) (hab : a ≤ b) :
    slice l (a : ℤ) (b : ℤ) = (l.drop a).take (b - a) := by
  have ha : ¬ ((a : ℤ) < 0) := by omega
  have hb : ¬ ((b : ℤ) < 0) := by omega
  simp only [slice, ha, hb, if_false]
  by_cases hal : a ≤ l.length
  · have hk : (min (a : ℤ) (l.length : ℤ)).toNat = a := by omega
    rw [hk, List.take_eq_take, List.length_drop]
    omega
  · have hk : l.length ≤ (min (a : ℤ) (l.length : ℤ)).toNat := by omega
    rw [List.drop_eq_nil_of_le hk, List.drop_eq_nil_of_le (by omega)]
    simp

theorem pageSlice_eq (s : AppState) (k : ℕ) :
    pageSlice s ((k : ℤ) + 1) = (s.currentResults.drop (10 * k)).take 10 := by
  have h₁ : ((k : ℤ) + 1 - 1) * ((10 : ℕ) : ℤ) = ((10 * k : ℕ) : ℤ) := by
    push_cast
    ring
  have h₂ : ((10 * k : ℕ) : ℤ) + ((10 : ℕ) : ℤ) = ((10 * k + 10 : ℕ) : ℤ) := by
    push_cast
    ring
  show slice s.currentResults (((k : ℤ) + 1 - 1) * ((10 : ℕ) : ℤ))
    (((k : ℤ) + 1 - 1) * ((10 : ℕ) : ℤ) + ((10 : ℕ) : ℤ)) = _
  rw [h₁, h₂, slice_of_le _ _ _ (by omega)]
  congr 1
  omega

theorem flatten_chunks {α : Type} (l : List α) (n : ℕ) :
    ((List.range n).map (fun (k : ℕ) => (l.drop (10 * k)).take 10)).flatten =
      l.take (10 * n) := by
  induction n with
  | zero => simp
  | succ n ih =>
    rw [List.range_succ, List.map_append, List.flatten_append, ih]
    simp only [List.map_cons, List.map_nil, List.flatten_cons, List.flatten_nil,
      List.append_nil]
    rw [← List.take_add]
    congr 1

/-! ## Pages: the claims -/

/-- C14: the pages partition the result set.  With a page size of 10 and P the page
count, the slice rendered for each page from 1 to P is non-empty and has at most 10
records, and the slices of the pages 1, 2, ..., P, one after the other, make up exactly
the result list; the rows of the table are the records of the slice of the current
page, in order. -/
theorem pages_partition (s : AppState) :
    (∀ p : ℤ, 1 ≤ p → p ≤ pageCount s →
      pageSlice s p ≠ [] ∧ (pageSlice s p).length ≤ 10) ∧
    ((List.range (pageCount s).toNat).map
      (fun (k : ℕ) => pageSlice s ((k : ℤ) + 1))).flatten = s.currentResults ∧
    (∀ p : ℤ, renderTable { s with currentPage := p } = (pageSlice s p).map renderRow) := by
  refine ⟨fun p hp₁ hp₂ => ?_, ?_, fun p => rfl⟩
  · have hp : p = (((p - 1).toNat : ℕ) : ℤ) + 1 := by omega
    rw [pageCount_eq] at hp₂
    have hlen : (pageSlice s p).length =
        min 10 (s.currentResults.length - 10 * (p - 1).toNat) := by
      rw [hp, pageSlice_eq, List.length_take, List.length_drop]
      congr 2
      omega
    constructor
    · intro hnil
      rw [hnil] at hlen
      simp only [List.length_nil] at hlen
      omega
    · omega
  · simp only [pageSlice_eq]
    rw [flatten_chunks]
    apply List.take_of_length_le
    have h := pageCount_eq s
    omega

theorem pages_partition_witness :
    pageSlice (sampleState 25 1) 3 ≠ [] ∧ (pageSlice (sampleState 25 1) 3).length ≤ 10 :=
  (pages_partition (sampleState 25 1)).1 3 (by decide) (by rw [pageCount_eq]; decide)

end ResumeAI
